import Mathlib

/-!
Shallow embedding of the murmur streaming-dictation pipeline
(`src/murmur/audio.py`, `src/murmur/transcribe.py`, `src/murmur/inject.py`).

Python strings are modelled as `List Char` (sequences of code points),
numpy sample arrays as `List Int` (sample values are opaque to the control
flow being verified), and wallclock times / seconds as `ℚ`.  Stateful
methods become pure functions from the old state to the new state plus
their observable outputs.
-/

/-- Python `str.split()` helper: accumulates the current word (reversed) and
flushes it at each whitespace character, discarding empty pieces. -/
def splitWsAux : List Char → List Char → List (List Char)
  | [], acc => if acc = [] then [] else [acc.reverse]
  | c :: rest, acc =>
    if c.isWhitespace then
      if acc = [] then splitWsAux rest [] else acc.reverse :: splitWsAux rest []
    else splitWsAux rest (c :: acc)

/-- Python `str.split()` with no separator: maximal runs of non-whitespace. -/
def splitWs (s : List Char) : List (List Char) := splitWsAux s []

/-- Python `" ".join(words)`. -/
def joinWords : List (List Char) → List Char
  | [] => []
  | [w] => w
  | w :: ws => w ++ ' ' :: joinWords ws

/-- Python `str.strip()`: drop leading and trailing whitespace. -/
def pyStrip (s : List Char) : List Char :=
  ((s.dropWhile Char.isWhitespace).reverse.dropWhile Char.isWhitespace).reverse

/-- A string is whitespace-normalized when it equals the space-join of its
own tokens (single spaces, no leading/trailing whitespace). -/
def normalW (s : List Char) : Prop := s = joinWords (splitWs s)

instance (s : List Char) : Decidable (normalW s) := by unfold normalW; infer_instance

/-- The common-prefix loop of `StreamingInjector.update`
(`for i, (c1, c2) in enumerate(zip(old_tail, new_tail)) ...`). -/
def commonPrefixLen : List Char → List Char → ℕ
  | c1 :: t1, c2 :: t2 => if c1 = c2 then commonPrefixLen t1 t2 + 1 else 0
  | _, _ => 0

/-- Python tail slice `lst[-n:]`: the last `n` elements, except that
`lst[-0:]` is the whole list. -/
def pyTailSlice (n : ℕ) (l : List (List Char)) : List (List Char) :=
  if n = 0 then l else l.drop (l.length - n)

/-- Python `int()` on a rational: truncation toward zero. -/
def pyInt (q : ℚ) : ℤ := if q < 0 then -(⌊-q⌋) else ⌊q⌋

/-- Sum of the chunk lengths held in a deque of chunks. -/
def sumLen (b : List (List Int)) : ℕ := (b.map List.length).sum

/-- Modelled from the spec: "the last `N` samples (tail slice)", all of them
when fewer are held.  Used to compare `get_audio` against the spec's words. -/
def takeLast (n : ℕ) (l : List Int) : List Int := l.drop (l.length - n)

/-- Decides "the tokens of `a` form a subsequence of the tokens of `b`"
(greedy matching), used to state the token-subsequence part of the spec's
monotonicity property. -/
def subseqB : List (List Char) → List (List Char) → Bool
  | [], _ => true
  | _ :: _, [] => false
  | a :: as, b :: bs => if a = b then subseqB as bs else subseqB (a :: as) bs

/-! ## StabilityTracker (`transcribe.py`, `_update_stability` / `_merge_with_committed`) -/

/-- Configuration of `StreamingTranscriber`, holding the already-normalized
constructor values (`_min_audio_samples` is the computed sample count). -/
structure TranscriberConfig where
  stability_count_required : ℕ
  silence_commit_seconds : ℚ
  prompt_max_words : ℕ
  overlap_max_words : ℕ
  min_audio_samples : ℕ
  use_initial_prompt : Bool
deriving DecidableEq, Repr

/-- Mutable tracker state of `StreamingTranscriber`. -/
structure TrackerState where
  committed_text : List Char
  pending_text : List Char
  last_full_text : List Char
  stability_count : ℕ
deriving DecidableEq, Repr

/-- `StreamingResult` dataclass. -/
structure StreamingResult where
  committed_text : List Char
  pending_text : List Char
  full_text : List Char
  is_final : Bool
deriving DecidableEq, Repr

/-- The descending overlap scan of `_merge_with_committed`:
`for overlap in range(max_overlap, 0, -1): if committed_words[-overlap:] == new_words[:overlap]`. -/
def findOverlap (cw nw : List (List Char)) : ℕ → Option ℕ
  | 0 => none
  | k + 1 =>
    if cw.drop (cw.length - (k + 1)) = nw.take (k + 1) then some (k + 1)
    else findOverlap cw nw k

/-- `StreamingTranscriber._merge_with_committed`. -/
def mergeWithCommitted (overlap_max_words : ℕ) (committed new_text : List Char) :
    List Char :=
  if committed = [] then new_text
  else if new_text = [] then committed
  else if committed.isPrefixOf new_text then new_text
  else
    let committed_words := splitWs committed
    let new_words := splitWs new_text
    let max_overlap := min overlap_max_words (min committed_words.length new_words.length)
    match findOverlap committed_words new_words max_overlap with
    | some overlap => joinWords (committed_words ++ new_words.drop overlap)
    | none => pyStrip (committed ++ ' ' :: new_text)

/-- `StreamingTranscriber._update_stability`: returns the new tracker state
together with the emitted `StreamingResult`. -/
def updateStability (cfg : TranscriberConfig) (st : TrackerState)
    (new_text : Option (List Char)) (silence_duration : ℚ) (is_final : Bool) :
    TrackerState × StreamingResult :=
  let nt := pyStrip (new_text.getD [])
  let merged := mergeWithCommitted cfg.overlap_max_words st.committed_text nt
  if is_final then
    ({ st with committed_text := merged, pending_text := [] },
     ⟨merged, [], merged, true⟩)
  else
    let sc := if merged = st.last_full_text then st.stability_count + 1 else 0
    let should_commit :=
      cfg.stability_count_required ≤ sc ∨ cfg.silence_commit_seconds ≤ silence_duration
    if should_commit ∧ merged ≠ [] then
      (⟨merged, [], merged, sc⟩, ⟨merged, [], merged, false⟩)
    else
      let pending :=
        if st.committed_text.isPrefixOf merged then
          pyStrip (merged.drop st.committed_text.length)
        else merged
      (⟨st.committed_text, pending, merged, sc⟩,
       ⟨st.committed_text, pending, merged, false⟩)

/-- One call to the stability tracker: the text handed over by `_transcribe`
(`none` on failure), the current silence duration, and the final flag. -/
structure TrackerInput where
  text : Option (List Char)
  silence : ℚ
  is_final : Bool
deriving DecidableEq, Repr

/-- A session: fold the stability update over a list of inputs, collecting
every emitted `StreamingResult`. -/
def runTracker (cfg : TranscriberConfig) (st : TrackerState) :
    List TrackerInput → TrackerState × List StreamingResult
  | [] => (st, [])
  | i :: rest =>
    let step := updateStability cfg st i.text i.silence i.is_final
    let tail := runTracker cfg step.1 rest
    (tail.1, step.2 :: tail.2)

/-! ## StreamingTranscriber (`transcribe.py`, `_transcribe` / `_clean_output` / `process_audio`) -/

/-- Result of the recognizer invocation inside the `try` of `_transcribe`:
either the list of segment texts delivered to the callback, or a raised
exception. -/
inductive RecogOutcome where
  | ok (segments : List (List Char))
  | exn
deriving DecidableEq, Repr

/-- Scanner for `re.sub(r"\[.*?\]", "", text)` while inside a bracket:
returns the rest after the closing bracket, or `none` when no closing
bracket occurs before a newline (where `.` stops matching) or the end. -/
def findClose : List Char → Option (List Char)
  | [] => none
  | c :: rest => if c = ']' then some rest else if c = '\n' then none else findClose rest

/-- `re.sub(r"\[.*?\]", "", text)`: each match runs from a `[` to the nearest
following `]` with no newline in between; unmatched brackets are kept.
The buffered scan below is equivalent to the leftmost-first regex semantics:
the second argument, when present, holds (reversed) the text since the
currently open `[`; it is dropped on `]`, flushed verbatim on `\n` / end. -/
def removeBracketsAux : List Char → Option (List Char) → List Char
  | [], none => []
  | [], some buf => buf.reverse
  | c :: rest, none =>
    if c = '[' then removeBracketsAux rest (some [c]) else c :: removeBracketsAux rest none
  | c :: rest, some buf =>
    if c = ']' then removeBracketsAux rest none
    else if c = '\n' then buf.reverse ++ '\n' :: removeBracketsAux rest none
    else removeBracketsAux rest (some (c :: buf))

/-- The bracket-artifact removal step of `_clean_output`. -/
def removeBrackets (s : List Char) : List Char := removeBracketsAux s none

/-- Python `text.replace(old, "")` for a nonempty pattern `old`: drops all
non-overlapping occurrences, scanning left to right.  The fuel argument
(initialised to the text length) only bounds the recursion; every step
consumes at least one character, so it never runs out for nonempty `old`. -/
def removeAllFuel (old : List Char) : ℕ → List Char → List Char
  | 0, s => s
  | _ + 1, [] => []
  | fuel + 1, c :: rest =>
    if old.isPrefixOf (c :: rest) then removeAllFuel old fuel (rest.drop (old.length - 1))
    else c :: removeAllFuel old fuel rest

/-- Python `text.replace(old, "")` (nonempty `old`). -/
def removeAll (old s : List Char) : List Char := removeAllFuel old s.length s

/-- The hallucination strings removed by `_clean_output`. -/
def hallucinations : List (List Char) :=
  ["(music)".toList, "(Music)".toList, "[Music]".toList, "(silence)".toList,
   "(Silence)".toList, "Thank you.".toList, "Thanks for watching!".toList,
   "Subscribe".toList, "[BLANK_AUDIO]".toList, "(BLANK_AUDIO)".toList]

/-- `StreamingTranscriber._clean_output`. -/
def cleanOutput (text : List Char) : Option (List Char) :=
  if text = [] then none
  else
    let t1 := removeBrackets text
    let t2 := hallucinations.foldl (fun s h => removeAll h s) t1
    let t3 := joinWords (splitWs t2)
    if pyStrip t3 = [] then none else some (pyStrip t3)

/-- The descending anti-echo scan of `_transcribe`:
`for i in range(max_check, 0, -1): if output_words[:i] == prompt_words[-i:]`,
returning the overlap length (0 when none matches). -/
def findEcho (output_words prompt_words : List (List Char)) : ℕ → ℕ
  | 0 => 0
  | i + 1 =>
    if output_words.take (i + 1) = prompt_words.drop (prompt_words.length - (i + 1)) then i + 1
    else findEcho output_words prompt_words i

/-- The anti-echo clamp of `_transcribe` applied to a cleaned output given the
prompt: strip the leading overlap with the prompt's tail, capped at 20 words. -/
def clampEcho (prompt cleaned : List Char) : List Char :=
  let prompt_words := splitWs prompt
  let output_words := splitWs cleaned
  let max_check := min (min prompt_words.length output_words.length) 20
  let overlap_len := findEcho output_words prompt_words max_check
  if 0 < overlap_len then joinWords (output_words.drop overlap_len) else cleaned

/-- `StreamingTranscriber._transcribe`: builds the prompt from the committed
text, joins the recognizer's segments, cleans them and applies the anti-echo
clamp; any raised exception is caught and yields `none`. -/
def transcribe (cfg : TranscriberConfig) (committed_text : List Char)
    (recog : RecogOutcome) : Option (List Char) :=
  match recog with
  | .exn => none
  | .ok segments =>
    let prompt : List Char :=
      if committed_text = [] then []
      else joinWords (pyTailSlice cfg.prompt_max_words (splitWs committed_text))
    if segments = [] then none
    else
      let text := joinWords segments
      match cleanOutput text with
      | none => none
      | some cleaned =>
        let cleaned2 :=
          if cleaned ≠ [] ∧ prompt ≠ [] then clampEcho prompt cleaned else cleaned
        if cleaned2 = [] then none else some cleaned2

/-- `StreamingTranscriber.process_audio`: length gate, then inference, then
the stability update (run even when the recognizer produced nothing). -/
def processAudio (cfg : TranscriberConfig) (st : TrackerState)
    (audio : Option (List Int)) (recog : RecogOutcome) (silence_duration : ℚ)
    (is_final : Bool) : Option (TrackerState × StreamingResult) :=
  match audio with
  | none => none
  | some a =>
    if a.length < cfg.min_audio_samples then none
    else some (updateStability cfg st (transcribe cfg st.committed_text recog)
      silence_duration is_final)

/-! ## RingBuffer (`audio.py`) -/

/-- `RingBuffer` state: a deque of chunks (front = oldest) plus the tracked
total sample count. -/
structure RingBuffer where
  max_samples : ℕ
  sample_rate : ℕ
  buffer : List (List Int)
  total_samples : ℕ
deriving DecidableEq, Repr

/-- `RingBuffer.__init__`: `max_samples = int(max_seconds * sample_rate)`. -/
def RingBuffer.init (max_seconds : ℚ) (sample_rate : ℕ) : RingBuffer :=
  { max_samples := (pyInt (max_seconds * sample_rate)).toNat
    sample_rate := sample_rate
    buffer := []
    total_samples := 0 }

/-- The trim loop of `RingBuffer.append`:
`while self._total_samples > self.max_samples and self._buffer: popleft`. -/
def trimBuf (max_samples : ℕ) : List (List Int) → ℕ → List (List Int) × ℕ
  | [], t => ([], t)
  | oldest :: rest, t =>
    if max_samples < t then trimBuf max_samples rest (t - oldest.length)
    else (oldest :: rest, t)

/-- `RingBuffer.append`: push the chunk, then drop oldest whole chunks while
over capacity. -/
def RingBuffer.append (rb : RingBuffer) (chunk : List Int) : RingBuffer :=
  let trimmed := trimBuf rb.max_samples (rb.buffer ++ [chunk])
    (rb.total_samples + chunk.length)
  { rb with buffer := trimmed.1, total_samples := trimmed.2 }

/-- Python slice `audio[-k:]` for an integer `k` (`k = 0` yields the whole
list, negative `k` drops the first `-k` elements). -/
def pySliceNeg (k : ℤ) (l : List Int) : List Int :=
  if 0 < k then l.drop (l.length - k.toNat)
  else if k = 0 then l
  else l.drop (-k).toNat

/-- `RingBuffer.get_audio`: concatenate all chunks; with `last_seconds` given,
keep only the tail of `int(last_seconds * sample_rate)` samples when the
concatenation is longer than that. -/
def RingBuffer.get_audio (rb : RingBuffer) (last_seconds : Option ℚ) : List Int :=
  if rb.buffer = [] then []
  else
    let audio := rb.buffer.flatten
    match last_seconds with
    | none => audio
    | some ls =>
      let max_samples := pyInt (ls * rb.sample_rate)
      if max_samples < (audio.length : ℤ) then pySliceNeg max_samples audio else audio

/-- `RingBuffer.clear`. -/
def RingBuffer.clear (rb : RingBuffer) : RingBuffer :=
  { rb with buffer := [], total_samples := 0 }

/-- One observable operation on a `RingBuffer`. -/
inductive RingOp where
  | append (chunk : List Int)
  | clear
  | getAudio (last_seconds : Option ℚ)
deriving DecidableEq, Repr

/-- State transition of one `RingOp` (`get_audio` does not mutate). -/
def ringStep (rb : RingBuffer) : RingOp → RingBuffer
  | .append c => rb.append c
  | .clear => rb.clear
  | .getAudio _ => rb

/-- All observation points of a run: the initial state and the state after
each operation. -/
def ringStates (rb : RingBuffer) : List RingOp → List RingBuffer
  | [] => [rb]
  | op :: rest => rb :: ringStates (ringStep rb op) rest

/-! ## VAD (`audio.py`) -/

/-- `VAD` state (`threshold`, `speech_pad_samples`, `sample_rate` are set at
construction; `_last_speech_time`, `_is_speaking` are mutable). -/
structure VADState where
  threshold : ℚ
  speech_pad_samples : ℕ
  sample_rate : ℕ
  last_speech_time : ℚ
  is_speaking : Bool
deriving DecidableEq, Repr

/-- `VAD.process`, with the chunk abstracted to its length and its RMS value
(the square root `np.sqrt(np.mean(audio**2))` is real arithmetic computed
outside the control flow; only the comparison with the threshold matters)
and the wallclock `time.time()` passed explicitly. -/
def VADState.processModel (v : VADState) (chunk_len : ℕ) (rms : ℚ) (now : ℚ) :
    VADState × Bool :=
  if chunk_len = 0 then (v, false)
  else if v.threshold < rms then
    ({ v with last_speech_time := now, is_speaking := true }, true)
  else if v.is_speaking ∧
      now - v.last_speech_time < (v.speech_pad_samples : ℚ) / (v.sample_rate : ℚ) then
    (v, true)
  else ({ v with is_speaking := false }, false)

/-- `VAD.silence_duration` at wallclock `now`. -/
def VADState.silence_duration (v : VADState) (now : ℚ) : ℚ :=
  if v.is_speaking then 0 else now - v.last_speech_time

/-- `VAD.reset`: zero the mutable state. -/
def VADState.reset (v : VADState) : VADState :=
  { v with last_speech_time := 0, is_speaking := false }

/-- One processed chunk, abstracted to its length, RMS and arrival time. -/
structure VADChunk where
  chunk_len : ℕ
  rms : ℚ
  now : ℚ
deriving DecidableEq, Repr

/-- Fold `VAD.process` over a sequence of chunks. -/
def runVAD (v : VADState) : List VADChunk → VADState
  | [] => v
  | c :: rest => runVAD (v.processModel c.chunk_len c.rms c.now).1 rest

/-! ## StreamingInjector (`inject.py`) -/

/-- Injector configuration after `__init__` normalization
(`max(1, max_updates_per_sec)`, `max(0, max_backspace_chars)`); the two sleep
delays do not influence the observable text or events and are omitted. -/
structure InjectorConfig where
  max_updates_per_sec : ℕ
  max_backspace_chars : ℕ
deriving DecidableEq, Repr

/-- Mutable injector state. -/
structure InjectorState where
  typed_text : List Char
  last_update_time : ℚ
deriving DecidableEq, Repr

/-- Observable outcome of one `StreamingInjector.update` call: the returned
boolean, the new state, the number of backspace events sent, and the
characters typed. -/
structure InjectorOutcome where
  ret : Bool
  state : InjectorState
  backspaces : ℕ
  typed : List Char
deriving DecidableEq, Repr

/-- `StreamingInjector.update`, with `time.time()` passed as `now`.  Note that
the source initialises `prefix_keep = ""` and never reassigns it, so the
`not new_text.startswith(prefix_keep)` branch is unreachable
(`startswith("")` is always true); it is nevertheless embedded faithfully. -/
def injectorUpdate (cfg : InjectorConfig) (s : InjectorState) (new_text : List Char)
    (force : Bool) (now : ℚ) : InjectorOutcome :=
  if new_text = [] then ⟨false, s, 0, []⟩
  else if force = false ∧ now - s.last_update_time < 1 / (cfg.max_updates_per_sec : ℚ)
  then ⟨false, s, 0, []⟩
  else if s.typed_text = new_text then ⟨false, s, 0, []⟩
  else
    let old_text := s.typed_text
    let prefix_keep : List Char := []
    if cfg.max_backspace_chars < old_text.length ∧ (prefix_keep.isPrefixOf new_text) = false
    then ⟨true, { s with typed_text := new_text }, 0, []⟩
    else
      let old_tail := old_text.drop prefix_keep.length
      let new_tail := new_text.drop prefix_keep.length
      let common_len := commonPrefixLen old_tail new_tail
      let delete_count := old_tail.length - common_len
      let suffix := new_tail.drop common_len
      ⟨true, { typed_text := prefix_keep ++ new_tail, last_update_time := now },
       delete_count, suffix⟩

/-- Modelled from the spec: `prefix_keep = typed_text[: len(typed_text) −
max_backspace_chars]`, the immutable prefix the backspace budget protects.
The source never computes this value (its `prefix_keep` stays `""`); this
definition follows the spec's words for comparison. -/
def prefixKeepSpec (typed_text : List Char) (max_backspace_chars : ℕ) : List Char :=
  typed_text.take (typed_text.length - max_backspace_chars)

/-! ## Concrete instances used in witnesses and counterexamples -/

/-- Well-formed word lists: every word nonempty and whitespace-free
(the shape `splitWs` always produces). -/
def WfWords (ws : List (List Char)) : Prop :=
  ∀ w ∈ ws, w ≠ [] ∧ ∀ c ∈ w, c.isWhitespace = false

/-- A transcriber configuration with integer-valued silence threshold
(1 second), used for concrete runs. -/
def trCfg : TranscriberConfig := ⟨2, 1, 50, 20, 1600, true⟩

/-- Fresh tracker state (as after `reset`). -/
def trFresh : TrackerState := ⟨[], [], [], 0⟩

/-- Tracker state whose committed text is the single word `x`. -/
def trX : TrackerState := ⟨['x'], [], [], 0⟩

/-- A 21-token text, one more than the default `overlap_max_words = 20`. -/
def t21 : List Char :=
  "a1 a2 a3 a4 a5 a6 a7 a8 a9 a10 a11 a12 a13 a14 a15 a16 a17 a18 a19 a20 a21".toList

/-- Injector configuration with `max_updates_per_sec = 4`,
`max_backspace_chars = 5`. -/
def injCfg : InjectorConfig := ⟨4, 5⟩

/-- Injector state with ten typed characters. -/
def injSt : InjectorState := ⟨"abcdefghij".toList, 0⟩

/-- A ring buffer holding five samples with capacity 10 at 10 Hz
(the state `(RingBuffer.init 1 10).append [1,2,3,4,5]` reaches). -/
def rbW : RingBuffer := ⟨10, 10, [[1, 2, 3, 4, 5]], 5⟩

/-- A VAD with integer threshold and stale mutable fields (to be reset). -/
def vadW : VADState := ⟨1, 300, 16000, 77, true⟩

/-! ## Helper lemmas: words, joins, strips -/

theorem space_isWhitespace : (' ').isWhitespace = true := by decide

theorem splitWsAux_mem (s : List Char) : ∀ (acc : List Char),
    (∀ c ∈ acc, c.isWhitespace = false) →
    ∀ w ∈ splitWsAux s acc, w ≠ [] ∧ ∀ c ∈ w, c.isWhitespace = false := by
  induction s with
  | nil =>
    intro acc hacc w hw
    by_cases h : acc = []
    · simp [splitWsAux, h] at hw
    · simp only [splitWsAux, if_neg h, List.mem_singleton] at hw
      subst hw
      refine ⟨by simpa using h, ?_⟩
      intro c hc
      exact hacc c (List.mem_reverse.mp hc)
  | cons c rest ih =>
    intro acc hacc w hw
    by_cases hws : c.isWhitespace
    · by_cases h : acc = []
      · simp only [splitWsAux, hws, if_pos h, if_true] at hw
        exact ih [] (by simp) w hw
      · simp only [splitWsAux, hws, if_neg h, if_true, List.mem_cons] at hw
        rcases hw with hw | hw
        · subst hw
          exact ⟨by simpa using h, fun d hd => hacc d (List.mem_reverse.mp hd)⟩
        · exact ih [] (by simp) w hw
    · simp only [splitWsAux, hws, if_false] at hw
      refine ih (c :: acc) ?_ w hw
      intro d hd
      rcases List.mem_cons.mp hd with h | h
      · subst h; simpa using hws
      · exact hacc d h

theorem splitWs_wf (s : List Char) : WfWords (splitWs s) :=
  splitWsAux_mem s [] (by simp)

theorem splitWsAux_space (b : List Char) : ∀ (a acc : List Char),
    splitWsAux (a ++ ' ' :: b) acc = splitWsAux a acc ++ splitWsAux b [] := by
  intro a
  induction a with
  | nil =>
    intro acc
    by_cases h : acc = [] <;> simp [splitWsAux, space_isWhitespace, h]
  | cons c a ih =>
    intro acc
    by_cases hws : c.isWhitespace <;> by_cases h : acc = [] <;>
      simp [splitWsAux, hws, h, ih]

theorem splitWs_space (a b : List Char) :
    splitWs (a ++ ' ' :: b) = splitWs a ++ splitWs b :=
  splitWsAux_space b a []

theorem splitWsAux_noWs : ∀ (w acc : List Char),
    (∀ c ∈ w, c.isWhitespace = false) →
    splitWsAux w acc = if acc.reverse ++ w = [] then [] else [acc.reverse ++ w] := by
  intro w
  induction w with
  | nil =>
    intro acc _
    by_cases h : acc = [] <;> simp [splitWsAux, h]
  | cons c rest ih =>
    intro acc h
    have hc : c.isWhitespace = false := h c (by simp)
    rw [show splitWsAux (c :: rest) acc = splitWsAux rest (c :: acc) by
      simp [splitWsAux, hc]]
    rw [ih (c :: acc) (fun d hd => h d (List.mem_cons_of_mem _ hd))]
    simp

theorem splitWs_single (w : List Char) (hne : w ≠ [])
    (h : ∀ c ∈ w, c.isWhitespace = false) : splitWs w = [w] := by
  unfold splitWs
  rw [splitWsAux_noWs w [] h]
  simp [hne]

theorem joinWords_cons (w : List Char) (ws : List (List Char)) (h : ws ≠ []) :
    joinWords (w :: ws) = w ++ ' ' :: joinWords ws := by
  cases ws with
  | nil => exact absurd rfl h
  | cons x xs => rfl

theorem joinWords_append (a b : List (List Char)) (ha : a ≠ []) (hb : b ≠ []) :
    joinWords (a ++ b) = joinWords a ++ ' ' :: joinWords b := by
  induction a with
  | nil => exact absurd rfl ha
  | cons w a ih =>
    cases a with
    | nil => simpa using joinWords_cons w b hb
    | cons x xs =>
      rw [List.cons_append, joinWords_cons w ((x :: xs) ++ b) (by simp),
        ih (by simp), joinWords_cons w (x :: xs) (by simp)]
      simp

theorem splitWs_join (ws : List (List Char)) (h : WfWords ws) :
    splitWs (joinWords ws) = ws := by
  induction ws with
  | nil => rfl
  | cons w ws ih =>
    have hw := h w (by simp)
    cases ws with
    | nil => simpa [joinWords] using splitWs_single w hw.1 hw.2
    | cons x xs =>
      rw [joinWords_cons w _ (by simp), splitWs_space,
        splitWs_single w hw.1 hw.2, ih (fun v hv => h v (List.mem_cons_of_mem _ hv))]
      rfl

theorem normalW_join (ws : List (List Char)) (h : WfWords ws) :
    normalW (joinWords ws) := by
  unfold normalW
  rw [splitWs_join ws h]

theorem splitWs_ne_nil (s : List Char) (hs : normalW s) (h : s ≠ []) :
    splitWs s ≠ [] := by
  intro hem
  apply h
  rw [hs, hem]
  rfl

theorem joinWords_head (ws : List (List Char)) (h : WfWords ws) (hne : ws ≠ []) :
    ∃ c r, joinWords ws = c :: r ∧ c.isWhitespace = false := by
  cases ws with
  | nil => exact absurd rfl hne
  | cons w rest =>
    obtain ⟨c, w', hw⟩ := List.exists_cons_of_ne_nil (h w (by simp)).1
    have hc : c.isWhitespace = false := (h w (by simp)).2 c (by rw [hw]; simp)
    cases rest with
    | nil => exact ⟨c, w', by simpa [joinWords] using hw, hc⟩
    | cons x xs =>
      refine ⟨c, w' ++ ' ' :: joinWords (x :: xs), ?_, hc⟩
      rw [joinWords_cons w _ (by simp), hw]
      rfl

theorem joinWords_reverse_head (ws : List (List Char)) (h : WfWords ws) (hne : ws ≠ []) :
    ∃ c r, (joinWords ws).reverse = c :: r ∧ c.isWhitespace = false := by
  induction ws with
  | nil => exact absurd rfl hne
  | cons w rest ih =>
    cases rest with
    | nil =>
      have hw := h w (by simp)
      obtain ⟨c, r, hcr⟩ := List.exists_cons_of_ne_nil
        (show w.reverse ≠ [] by simpa using hw.1)
      refine ⟨c, r, by simpa [joinWords] using hcr, ?_⟩
      exact hw.2 c (by rw [← List.mem_reverse, hcr]; simp)
    | cons x xs =>
      obtain ⟨c, r, hcr, hc⟩ := ih (fun v hv => h v (List.mem_cons_of_mem _ hv)) (by simp)
      refine ⟨c, r ++ ' ' :: w.reverse, ?_, hc⟩
      rw [joinWords_cons w _ (by simp), List.reverse_append, List.reverse_cons,
        List.append_assoc, hcr]
      rfl

theorem pyStrip_eq_self (s : List Char)
    (h1 : s = [] ∨ ∃ c r, s = c :: r ∧ c.isWhitespace = false)
    (h2 : s = [] ∨ ∃ c r, s.reverse = c :: r ∧ c.isWhitespace = false) :
    pyStrip s = s := by
  rcases h1 with rfl | ⟨c, r, hcr, hc⟩
  · rfl
  unfold pyStrip
  rw [show s.dropWhile Char.isWhitespace = s by rw [hcr]; simp [List.dropWhile_cons, hc]]
  rcases h2 with rfl | ⟨d, q, hdq, hd⟩
  · simp at hcr
  rw [show s.reverse.dropWhile Char.isWhitespace = s.reverse by
    rw [hdq]; simp [List.dropWhile_cons, hd]]
  exact List.reverse_reverse s

theorem pyStrip_join (ws : List (List Char)) (h : WfWords ws) :
    pyStrip (joinWords ws) = joinWords ws := by
  cases hs : ws with
  | nil => rfl
  | cons w rest =>
    subst hs
    exact pyStrip_eq_self _
      (Or.inr (joinWords_head _ h (by simp)))
      (Or.inr (joinWords_reverse_head _ h (by simp)))

theorem pyStrip_append_sep (c t : List Char) (hc : normalW c) (ht : normalW t)
    (hcne : c ≠ []) (htne : t ≠ []) : pyStrip (c ++ ' ' :: t) = c ++ ' ' :: t := by
  apply pyStrip_eq_self
  · right
    obtain ⟨d, r, hdr, hd⟩ := joinWords_head (splitWs c) (splitWs_wf c)
      (splitWs_ne_nil c hc hcne)
    exact ⟨d, r ++ ' ' :: t, by rw [hc, hdr]; rfl, hd⟩
  · right
    obtain ⟨d, r, hdr, hd⟩ := joinWords_reverse_head (splitWs t) (splitWs_wf t)
      (splitWs_ne_nil t ht htne)
    refine ⟨d, r ++ ' ' :: c.reverse, ?_, hd⟩
    rw [List.reverse_append, List.reverse_cons, List.append_assoc]
    conv_lhs => rw [ht]
    rw [hdr]
    rfl

theorem findOverlap_some (cw nw : List (List Char)) : ∀ n k,
    findOverlap cw nw n = some k →
    1 ≤ k ∧ k ≤ n ∧ cw.drop (cw.length - k) = nw.take k := by
  intro n
  induction n with
  | zero => intro k h; simp [findOverlap] at h
  | succ m ih =>
    intro k h
    unfold findOverlap at h
    split at h
    · cases h
      exact ⟨by omega, le_refl _, by assumption⟩
    · obtain ⟨h1, h2, h3⟩ := ih k h
      exact ⟨h1, by omega, h3⟩

theorem findOverlap_top (cw nw : List (List Char)) (n : ℕ) (h1 : 1 ≤ n)
    (h2 : cw.drop (cw.length - n) = nw.take n) :
    findOverlap cw nw n = some n := by
  cases n with
  | zero => omega
  | succ m => unfold findOverlap; rw [if_pos h2]

theorem findOverlap_eq_findGreatest (cw nw : List (List Char)) : ∀ n,
    findOverlap cw nw n =
      (if Nat.findGreatest (fun i => cw.drop (cw.length - i) = nw.take i) n = 0
       then none
       else some (Nat.findGreatest (fun i => cw.drop (cw.length - i) = nw.take i) n)) := by
  intro n
  induction n with
  | zero => rfl
  | succ m ih =>
    rw [Nat.findGreatest_succ]
    unfold findOverlap
    by_cases h : cw.drop (cw.length - (m + 1)) = nw.take (m + 1)
    · rw [if_pos h, if_pos h, if_neg (by omega)]
    · rw [if_neg h, if_neg h, ih]

theorem findEcho_eq_findGreatest (ow pw : List (List Char)) : ∀ n,
    findEcho ow pw n =
      Nat.findGreatest (fun i => ow.take i = pw.drop (pw.length - i)) n := by
  intro n
  induction n with
  | zero => rfl
  | succ m ih =>
    rw [Nat.findGreatest_succ]
    unfold findEcho
    by_cases h : ow.take (m + 1) = pw.drop (pw.length - (m + 1))
    · rw [if_pos h, if_pos h]
    · rw [if_neg h, if_neg h, ih]

/-- Each merge step extends the committed text (as a string prefix) and
preserves whitespace-normalization, provided both inputs are normalized. -/
theorem merge_prefix (OM : ℕ) (c t : List Char) (hc : normalW c) (ht : normalW t) :
    c <+: mergeWithCommitted OM c t ∧ normalW (mergeWithCommitted OM c t) := by
  unfold mergeWithCommitted
  by_cases h1 : c = []
  · subst h1
    rw [if_pos rfl]
    exact ⟨List.nil_prefix, ht⟩
  by_cases h2 : t = []
  · subst h2
    rw [if_neg h1, if_pos rfl]
    exact ⟨List.prefix_rfl, hc⟩
  by_cases h3 : c.isPrefixOf t
  · simp only [if_neg h1, if_neg h2, h3, if_true]
    exact ⟨List.isPrefixOf_iff_prefix.mp h3, ht⟩
  simp only [if_neg h1, if_neg h2, h3, Bool.false_eq_true, if_false]
  have hA : splitWs c ≠ [] := splitWs_ne_nil c hc h1
  have hN : splitWs t ≠ [] := splitWs_ne_nil t ht h2
  cases h4 : findOverlap (splitWs c) (splitWs t)
      (min OM (min (splitWs c).length (splitWs t).length)) with
  | some k =>
    simp only [h4]
    have hwf : WfWords (splitWs c ++ (splitWs t).drop k) := by
      intro w hw
      rcases List.mem_append.mp hw with h | h
      · exact splitWs_wf c w h
      · exact splitWs_wf t w (List.mem_of_mem_drop h)
    refine ⟨?_, normalW_join _ hwf⟩
    cases hdrop : (splitWs t).drop k with
    | nil =>
      rw [List.append_nil, ← hc]
    | cons x xs =>
      rw [joinWords_append _ _ hA (by simp), ← hc]
      exact List.prefix_append c _
  | none =>
    simp only [h4]
    rw [pyStrip_append_sep c t hc ht h1 h2]
    refine ⟨List.prefix_append c _, ?_⟩
    unfold normalW
    rw [splitWs_space, joinWords_append _ _ hA hN, ← hc, ← ht]

theorem merge_self (OM : ℕ) (t : List Char) : mergeWithCommitted OM t t = t := by
  by_cases h : t = []
  · subst h; rfl
  · unfold mergeWithCommitted
    rw [if_neg h, if_neg h, if_pos (List.isPrefixOf_iff_prefix.mpr List.prefix_rfl)]

/-- Re-merging an already merged text with the same input is the identity,
provided both inputs are whitespace-normalized and the input has at most
`overlap_max_words` tokens. -/
theorem merge_idem (OM : ℕ) (c t : List Char) (hc : normalW c) (ht : normalW t)
    (hlen : (splitWs t).length ≤ OM) :
    mergeWithCommitted OM (mergeWithCommitted OM c t) t = mergeWithCommitted OM c t := by
  by_cases h1 : c = []
  · rw [show mergeWithCommitted OM c t = t by rw [h1]; rfl]
    exact merge_self OM t
  by_cases h2 : t = []
  · have hm : mergeWithCommitted OM c t = c := by
      unfold mergeWithCommitted
      rw [if_neg h1, if_pos h2]
    rw [hm]; exact hm
  by_cases h3 : c.isPrefixOf t
  · have hm : mergeWithCommitted OM c t = t := by
      unfold mergeWithCommitted
      rw [if_neg h1, if_neg h2, if_pos h3]
    rw [hm]; exact merge_self OM t
  set A := splitWs c with hAdef
  set N := splitWs t with hNdef
  have hcJ : c = joinWords A := hc
  have htJ : t = joinWords N := ht
  have hA : A ≠ [] := splitWs_ne_nil c hc h1
  have hN : N ≠ [] := splitWs_ne_nil t ht h2
  have hNlen : 1 ≤ N.length := List.length_pos.mpr hN
  cases h4 : findOverlap A N (min OM (min A.length N.length)) with
  | some k =>
    obtain ⟨hk1, hk2, hk3⟩ := findOverlap_some _ _ _ _ h4
    have hkA : k ≤ A.length :=
      le_trans hk2 (le_trans (min_le_right _ _) (min_le_left _ _))
    have hkN : k ≤ N.length :=
      le_trans hk2 (le_trans (min_le_right _ _) (min_le_right _ _))
    have hm : mergeWithCommitted OM c t = joinWords (A ++ N.drop k) := by
      unfold mergeWithCommitted
      rw [if_neg h1, if_neg h2, if_neg h3]
      simp only [← hAdef, ← hNdef, h4]
    rw [hm]
    have hsplitA : A.take (A.length - k) ++ N.take k = A := by
      conv_rhs => rw [← List.take_append_drop (A.length - k) A]
      rw [hk3]
    by_cases hAk : A.length = k
    · have hMN : A ++ N.drop k = N := by
        have hnil : A.take (A.length - k) = [] := by rw [hAk]; simp
        conv_lhs => rw [← hsplitA]
        rw [hnil, List.nil_append, List.take_append_drop]
      rw [hMN, ← htJ]
      exact merge_self OM t
    · have hAk' : k < A.length := lt_of_le_of_ne hkA (fun h => hAk h.symm)
      have htake_ne : A.take (A.length - k) ≠ [] := by
        intro h
        have := congrArg List.length h
        simp [List.length_take] at this
        omega
      have hM2 : A ++ N.drop k = A.take (A.length - k) ++ N := by
        conv_lhs => rw [← hsplitA]
        rw [List.append_assoc, List.take_append_drop]
      have hwfM : WfWords (A ++ N.drop k) := by
        intro w hw
        rcases List.mem_append.mp hw with h | h
        · exact splitWs_wf c w h
        · exact splitWs_wf t w (List.mem_of_mem_drop h)
      have hsplitM : splitWs (joinWords (A ++ N.drop k)) = A ++ N.drop k :=
        splitWs_join _ hwfM
      have hJ : joinWords (A ++ N.drop k) =
          joinWords (A.take (A.length - k)) ++ ' ' :: joinWords N := by
        rw [hM2, joinWords_append _ _ htake_ne hN]
      have hlt : t.length < (joinWords (A ++ N.drop k)).length := by
        rw [hJ, ← htJ]
        simp [List.length_append]
        omega
      have hMne : joinWords (A ++ N.drop k) ≠ [] := by
        intro h
        rw [h] at hlt
        simp at hlt
      have hpref : ¬ ((joinWords (A ++ N.drop k)).isPrefixOf t = true) := by
        intro hp
        have := (List.isPrefixOf_iff_prefix.mp hp).length_le
        omega
      unfold mergeWithCommitted
      rw [if_neg hMne, if_neg h2, if_neg hpref, hsplitM, ← hNdef]
      show (match findOverlap (A ++ N.drop k) N
          (min OM (min (A ++ N.drop k).length N.length)) with
        | some overlap => joinWords ((A ++ N.drop k) ++ N.drop overlap)
        | none => pyStrip (joinWords (A ++ N.drop k) ++ ' ' :: t)) =
        joinWords (A ++ N.drop k)
      have hMlen : N.length ≤ (A ++ N.drop k).length := by
        simp [List.length_append, List.length_drop]
        omega
      have hmin : min OM (min (A ++ N.drop k).length N.length) = N.length := by
        simp only [List.length_append, List.length_drop] at hMlen ⊢
        omega
      have htop : (A ++ N.drop k).drop ((A ++ N.drop k).length - N.length) =
          N.take N.length := by
        rw [List.take_length, hM2]
        have hlen2 : (A.take (A.length - k) ++ N).length - N.length =
            (A.take (A.length - k)).length := by
          simp [List.length_append]
        rw [hlen2, List.drop_left]
      rw [hmin, findOverlap_top _ _ N.length hNlen htop]
      show joinWords ((A ++ N.drop k) ++ N.drop N.length) = joinWords (A ++ N.drop k)
      rw [List.drop_length, List.append_nil]
  | none =>
    have hm : mergeWithCommitted OM c t = c ++ ' ' :: t := by
      unfold mergeWithCommitted
      rw [if_neg h1, if_neg h2, if_neg h3]
      simp only [← hAdef, ← hNdef, h4]
      exact pyStrip_append_sep c t hc ht h1 h2
    rw [hm]
    have hsplits : splitWs (c ++ ' ' :: t) = A ++ N := splitWs_space c t
    have hne : (c ++ ' ' :: t) ≠ [] := by simp
    have hpref : ¬ ((c ++ ' ' :: t).isPrefixOf t = true) := by
      intro hp
      have := (List.isPrefixOf_iff_prefix.mp hp).length_le
      simp [List.length_append] at this
      omega
    unfold mergeWithCommitted
    rw [if_neg hne, if_neg h2, if_neg hpref, hsplits, ← hNdef]
    show (match findOverlap (A ++ N) N (min OM (min (A ++ N).length N.length)) with
      | some overlap => joinWords ((A ++ N) ++ N.drop overlap)
      | none => pyStrip ((c ++ ' ' :: t) ++ ' ' :: t)) = c ++ ' ' :: t
    have hmin : min OM (min (A ++ N).length N.length) = N.length := by
      simp only [List.length_append]
      omega
    have htop : (A ++ N).drop ((A ++ N).length - N.length) = N.take N.length := by
      rw [List.take_length]
      have hlenAN : (A ++ N).length - N.length = A.length := by
        simp [List.length_append]
      rw [hlenAN, List.drop_left]
    rw [hmin, findOverlap_top _ _ N.length hNlen htop]
    show joinWords ((A ++ N) ++ N.drop N.length) = c ++ ' ' :: t
    rw [List.drop_length, List.append_nil, joinWords_append _ _ hA hN, ← hcJ, ← htJ]

/-- One stability update never shortens the committed text: the old committed
text is a string prefix of the new one and of the emitted `full_text`, and
normalization of the committed text is preserved. -/
theorem updateStability_mono (cfg : TranscriberConfig) (st : TrackerState)
    (txt : Option (List Char)) (sil : ℚ) (fin : Bool)
    (hc : normalW st.committed_text) (ht : normalW (pyStrip (txt.getD []))) :
    st.committed_text <+: (updateStability cfg st txt sil fin).1.committed_text ∧
    normalW (updateStability cfg st txt sil fin).1.committed_text ∧
    st.committed_text <+: (updateStability cfg st txt sil fin).2.full_text := by
  obtain ⟨hpref, hnorm⟩ :=
    merge_prefix cfg.overlap_max_words st.committed_text (pyStrip (txt.getD [])) hc ht
  unfold updateStability
  cases fin with
  | true =>
    simp only [if_pos rfl]
    exact ⟨hpref, hnorm, hpref⟩
  | false =>
    simp only [Bool.false_eq_true, if_false]
    split <;> split <;>
      first
      | exact ⟨hpref, hnorm, hpref⟩
      | exact ⟨List.prefix_rfl, hc, hpref⟩

/-- C4 (amended): within a session whose inputs are whitespace-normalized
after stripping, the committed text is monotone in the string-prefix order:
it is a prefix of every later committed text and of every later emitted
`full_text`. -/
theorem committed_monotone (cfg : TranscriberConfig) (st : TrackerState)
    (inputs : List TrackerInput) (hc : normalW st.committed_text)
    (hins : ∀ i ∈ inputs, normalW (pyStrip (i.text.getD []))) :
    st.committed_text <+: (runTracker cfg st inputs).1.committed_text ∧
    ∀ r ∈ (runTracker cfg st inputs).2, st.committed_text <+: r.full_text := by
  induction inputs generalizing st with
  | nil =>
    simp only [runTracker]
    exact ⟨List.prefix_rfl, by simp⟩
  | cons i rest ih =>
    obtain ⟨h1, h2, h3⟩ :=
      updateStability_mono cfg st i.text i.silence i.is_final hc (hins i (by simp))
    obtain ⟨ih1, ih2⟩ := ih (updateStability cfg st i.text i.silence i.is_final).1 h2
      (fun j hj => hins j (List.mem_cons_of_mem _ hj))
    simp only [runTracker]
    constructor
    · exact h1.trans ih1
    · intro r hr
      rcases List.mem_cons.mp hr with rfl | hr
      · exact h3
      · exact h1.trans (ih2 r hr)

/-- C3 (amended): two immediately consecutive final-pass stability updates
with the same text and silence yield identical `StreamingResult`s, provided
the committed text and the stripped input are whitespace-normalized and the
input has at most `overlap_max_words` tokens. -/
theorem final_pass_idempotent (cfg : TranscriberConfig) (st : TrackerState)
    (T : List Char) (sil : ℚ) (hc : normalW st.committed_text)
    (ht : normalW (pyStrip T))
    (hlen : (splitWs (pyStrip T)).length ≤ cfg.overlap_max_words) :
    (updateStability cfg (updateStability cfg st (some T) sil true).1
      (some T) sil true).2 = (updateStability cfg st (some T) sil true).2 := by
  have h1 : (updateStability cfg st (some T) sil true).1.committed_text =
      mergeWithCommitted cfg.overlap_max_words st.committed_text (pyStrip T) := rfl
  have h2 : ∀ st' : TrackerState, (updateStability cfg st' (some T) sil true).2 =
      ⟨mergeWithCommitted cfg.overlap_max_words st'.committed_text (pyStrip T), [],
       mergeWithCommitted cfg.overlap_max_words st'.committed_text (pyStrip T), true⟩ :=
    fun _ => rfl
  rw [h2, h2, h1,
    merge_idem cfg.overlap_max_words st.committed_text (pyStrip T) hc ht hlen]

/-! ## RingBuffer lemmas -/

theorem trimBuf_spec (max : ℕ) : ∀ (b : List (List Int)) (t : ℕ), t = sumLen b →
    (trimBuf max b t).2 = sumLen (trimBuf max b t).1 ∧ (trimBuf max b t).2 ≤ max ∧
    (trimBuf max b t).1 <:+ b := by
  intro b
  induction b with
  | nil =>
    intro t ht
    simp [sumLen] at ht
    subst ht
    exact ⟨by simp [trimBuf, sumLen], by simp [trimBuf], by simp [trimBuf]⟩
  | cons o rest ih =>
    intro t ht
    unfold trimBuf
    by_cases h : max < t
    · rw [if_pos h]
      have hrec := ih (t - o.length) (by simp [sumLen] at ht ⊢; omega)
      exact ⟨hrec.1, hrec.2.1, hrec.2.2.trans (List.suffix_cons o rest)⟩
    · rw [if_neg h]
      exact ⟨ht, Nat.not_lt.mp h, List.suffix_rfl⟩

theorem sumLen_append (b : List (List Int)) (c : List Int) :
    sumLen (b ++ [c]) = sumLen b + c.length := by
  simp [sumLen]

/-- `RingBuffer.append` keeps the tracked count consistent, puts the total
back within capacity, and only ever drops a whole-chunk prefix: the surviving
buffer is a suffix of old-buffer-plus-new-chunk. -/
theorem append_spec (rb : RingBuffer) (chunk : List Int)
    (h : rb.total_samples = sumLen rb.buffer) :
    (rb.append chunk).total_samples = sumLen (rb.append chunk).buffer ∧
    (rb.append chunk).total_samples ≤ (rb.append chunk).max_samples ∧
    (rb.append chunk).buffer <:+ rb.buffer ++ [chunk] := by
  have hrec := trimBuf_spec rb.max_samples (rb.buffer ++ [chunk])
    (rb.total_samples + chunk.length) (by rw [sumLen_append, h])
  exact ⟨hrec.1, hrec.2.1, hrec.2.2⟩

theorem ringStates_wf (ops : List RingOp) : ∀ (rb : RingBuffer),
    rb.total_samples = sumLen rb.buffer → rb.total_samples ≤ rb.max_samples →
    ∀ st ∈ ringStates rb ops,
      st.total_samples = sumLen st.buffer ∧ st.total_samples ≤ st.max_samples := by
  induction ops with
  | nil =>
    intro rb h1 h2 st hst
    simp only [ringStates, List.mem_singleton] at hst
    subst hst
    exact ⟨h1, h2⟩
  | cons op rest ih =>
    intro rb h1 h2 st hst
    simp only [ringStates, List.mem_cons] at hst
    rcases hst with rfl | hst
    · exact ⟨h1, h2⟩
    · cases op with
      | append chunk =>
        obtain ⟨g1, g2, _⟩ := append_spec rb chunk h1
        exact ih (rb.append chunk) g1 g2 st hst
      | clear =>
        exact ih rb.clear (by simp [RingBuffer.clear, sumLen]) (by simp [RingBuffer.clear]) st hst
      | getAudio ls =>
        exact ih rb h1 h2 st hst

/-- C5: over any sequence of operations from a fresh buffer, the tracked
total equals the stored total, never exceeds `max_samples`, and each append
drops only whole oldest chunks: the resulting buffer is a suffix of the
previous buffer with the new chunk attached. -/
theorem ringBuffer_invariant (max_seconds : ℚ) (sample_rate : ℕ) (ops : List RingOp)
    (st : RingBuffer)
    (hst : st ∈ ringStates (RingBuffer.init max_seconds sample_rate) ops) :
    st.total_samples = sumLen st.buffer ∧ st.total_samples ≤ st.max_samples ∧
    ∀ chunk, (st.append chunk).buffer <:+ st.buffer ++ [chunk] := by
  obtain ⟨h1, h2⟩ := ringStates_wf ops (RingBuffer.init max_seconds sample_rate)
    (by simp [RingBuffer.init, sumLen]) (by simp [RingBuffer.init]) st hst
  exact ⟨h1, h2, fun chunk => (append_spec st chunk h1).2.2⟩

theorem trimBuf_all (max : ℕ) : ∀ (b : List (List Int)) (t : ℕ) (c : List Int),
    t = sumLen b → max < c.length →
    trimBuf max (b ++ [c]) (t + c.length) = ([], 0) := by
  intro b
  induction b with
  | nil =>
    intro t c ht hc
    simp [sumLen] at ht
    subst ht
    simp only [List.nil_append, trimBuf, Nat.zero_add]
    rw [if_pos hc]
    simp [trimBuf]
  | cons o rest ih =>
    intro t c ht hc
    simp only [List.cons_append, trimBuf]
    rw [if_pos (by omega)]
    rw [show t + c.length - o.length = (t - o.length) + c.length by
      simp [sumLen] at ht; omega]
    exact ih (t - o.length) c (by simp [sumLen] at ht ⊢; omega) hc

/-- C10: appending a chunk longer than the whole capacity evicts everything,
including the new chunk itself, leaving an empty buffer; `get_audio()` then
returns the empty sample array. -/
theorem append_oversized (rb : RingBuffer) (chunk : List Int)
    (h : rb.total_samples = sumLen rb.buffer) (hbig : rb.max_samples < chunk.length) :
    (rb.append chunk).buffer = [] ∧ (rb.append chunk).total_samples = 0 ∧
    (rb.append chunk).get_audio none = [] := by
  have htrim : trimBuf rb.max_samples (rb.buffer ++ [chunk])
      (rb.total_samples + chunk.length) = ([], 0) :=
    trimBuf_all rb.max_samples rb.buffer rb.total_samples chunk h hbig
  unfold RingBuffer.append
  rw [htrim]
  exact ⟨rfl, rfl, rfl⟩

/-- C6 (amended): `get_audio(none)` returns the concatenation of all stored
chunks in arrival order.  For `get_audio(last_seconds)`, with
`ms = int(last_seconds * sample_rate)` (Python `int` truncation, not
ceiling): when `ms` is positive the call returns the tail slice of the last
`ms` samples (all samples when fewer are stored); when `ms = 0` the Python
slice `audio[-0:]` is the whole array, so ALL stored samples are returned;
when `ms` is negative `audio[-ms:]` drops the first `-ms` samples.  The
buffer is not modified (the model function reads the state only). -/
theorem get_audio_spec (rb : RingBuffer) (ls : ℚ) :
    rb.get_audio none = rb.buffer.flatten ∧
    rb.get_audio (some ls) =
      (if 0 < pyInt (ls * (rb.sample_rate : ℚ)) then
        takeLast (pyInt (ls * (rb.sample_rate : ℚ))).toNat rb.buffer.flatten
      else if pyInt (ls * (rb.sample_rate : ℚ)) = 0 then
        rb.buffer.flatten
      else
        rb.buffer.flatten.drop (-(pyInt (ls * (rb.sample_rate : ℚ)))).toNat) := by
  constructor
  · unfold RingBuffer.get_audio
    by_cases hb : rb.buffer = [] <;> simp [hb]
  · unfold RingBuffer.get_audio
    by_cases hb : rb.buffer = []
    · rw [if_pos hb, hb]
      simp [takeLast]
    · rw [if_neg hb]
      show (if pyInt (ls * (rb.sample_rate : ℚ)) < (rb.buffer.flatten.length : ℤ)
          then pySliceNeg (pyInt (ls * (rb.sample_rate : ℚ))) rb.buffer.flatten
          else rb.buffer.flatten) = _
      rcases lt_trichotomy (pyInt (ls * (rb.sample_rate : ℚ))) 0 with h | h | h
      · rw [if_neg (show ¬ 0 < pyInt (ls * (rb.sample_rate : ℚ)) by omega),
          if_neg (show ¬ pyInt (ls * (rb.sample_rate : ℚ)) = 0 by omega),
          if_pos (show pyInt (ls * (rb.sample_rate : ℚ)) <
            (rb.buffer.flatten.length : ℤ) by omega)]
        unfold pySliceNeg
        rw [if_neg (by omega), if_neg (by omega)]
      · rw [if_neg (show ¬ 0 < pyInt (ls * (rb.sample_rate : ℚ)) by omega), if_pos h]
        by_cases hlt : pyInt (ls * (rb.sample_rate : ℚ)) < (rb.buffer.flatten.length : ℤ)
        · rw [if_pos hlt]
          unfold pySliceNeg
          rw [if_neg (by omega), if_pos h]
        · rw [if_neg hlt]
      · rw [if_pos h]
        by_cases hlt : pyInt (ls * (rb.sample_rate : ℚ)) < (rb.buffer.flatten.length : ℤ)
        · rw [if_pos hlt]
          unfold pySliceNeg
          rw [if_pos h]
          rfl
        · rw [if_neg hlt]
          unfold takeLast
          rw [show rb.buffer.flatten.length -
              (pyInt (ls * (rb.sample_rate : ℚ))).toNat = 0 by omega, List.drop_zero]

/-! ## VAD lemmas -/

theorem runVAD_silent : ∀ (chunks : List VADChunk) (st : VADState),
    st.last_speech_time = 0 → st.is_speaking = false →
    (∀ ch ∈ chunks, ch.rms ≤ st.threshold) →
    (runVAD st chunks).last_speech_time = 0 ∧
    (runVAD st chunks).is_speaking = false := by
  intro chunks
  induction chunks with
  | nil => intro st h1 h2 _; exact ⟨h1, h2⟩
  | cons ch rest ih =>
    intro st h1 h2 hq
    have hstep : (st.processModel ch.chunk_len ch.rms ch.now).1.last_speech_time = 0 ∧
        (st.processModel ch.chunk_len ch.rms ch.now).1.is_speaking = false ∧
        (st.processModel ch.chunk_len ch.rms ch.now).1.threshold = st.threshold := by
      unfold VADState.processModel
      by_cases hl : ch.chunk_len = 0
      · rw [if_pos hl]
        exact ⟨h1, h2, rfl⟩
      · rw [if_neg hl, if_neg (not_lt.mpr (hq ch (by simp)))]
        rw [if_neg (by simp [h2])]
        exact ⟨h1, rfl, rfl⟩
    have := ih (st.processModel ch.chunk_len ch.rms ch.now).1 hstep.1 hstep.2.1
      (fun d hd => hstep.2.2 ▸ hq d (List.mem_cons_of_mem _ hd))
    exact this

/-- C9: after `reset()`, as long as every processed chunk has RMS at or below
the threshold, `last_speech_wallclock` stays `0`, so `silence_duration()`
reports the full wallclock value `now − 0 = now` — which is at least any
commit threshold not exceeding the wallclock itself. -/
theorem silence_after_reset (v : VADState) (chunks : List VADChunk) (now : ℚ)
    (hq : ∀ ch ∈ chunks, ch.rms ≤ v.threshold) :
    (runVAD v.reset chunks).silence_duration now = now ∧
    ∀ thr : ℚ, thr ≤ now → thr ≤ (runVAD v.reset chunks).silence_duration now := by
  obtain ⟨h1, h2⟩ := runVAD_silent chunks v.reset rfl rfl hq
  have hs : (runVAD v.reset chunks).silence_duration now = now := by
    unfold VADState.silence_duration
    rw [if_neg (by simp [h2]), h1, sub_zero]
  exact ⟨hs, fun thr hthr => by rw [hs]; exact hthr⟩

/-! ## Injector and transcriber claim theorems -/

/-- C1 (amended): when the typed text is longer than `max_backspace_chars`
and the new text does not start with the spec's `prefix_keep`, a non-empty,
non-throttled, non-identical update is NOT refused: the source's
`prefix_keep` is always the empty string, so the guarded branch never fires;
the call runs the plain diff over the full texts, returns `true`, emits
`len(typed_text) − common` backspaces (which may exceed the budget), types
the remaining suffix, and sets `typed_text := new_text` and
`last_update_wallclock := now`. -/
theorem injector_budget_not_enforced (cfg : InjectorConfig) (s : InjectorState)
    (new_text : List Char) (force : Bool) (now : ℚ) (hne : new_text ≠ [])
    (hth : force = true ∨
      ¬ (now - s.last_update_time < 1 / (cfg.max_updates_per_sec : ℚ)))
    (hdiff : s.typed_text ≠ new_text)
    (hlen : cfg.max_backspace_chars < s.typed_text.length)
    (hkeep : ((prefixKeepSpec s.typed_text cfg.max_backspace_chars).isPrefixOf
      new_text) = false) :
    (injectorUpdate cfg s new_text force now).ret = true ∧
    (injectorUpdate cfg s new_text force now).state.typed_text = new_text ∧
    (injectorUpdate cfg s new_text force now).state.last_update_time = now ∧
    (injectorUpdate cfg s new_text force now).backspaces =
      s.typed_text.length - commonPrefixLen s.typed_text new_text ∧
    (injectorUpdate cfg s new_text force now).typed =
      new_text.drop (commonPrefixLen s.typed_text new_text) := by
  unfold injectorUpdate
  rw [if_neg hne]
  rw [if_neg (show ¬ (force = false ∧
      now - s.last_update_time < 1 / (cfg.max_updates_per_sec : ℚ)) by
    rcases hth with h | h
    · intro hcontra; rw [h] at hcontra; exact absurd hcontra.1 (by simp)
    · intro hcontra; exact h hcontra.2)]
  rw [if_neg hdiff]
  rw [if_neg (show ¬ (cfg.max_backspace_chars < s.typed_text.length ∧
      (([] : List Char).isPrefixOf new_text) = false) by
    intro hcontra
    have hnil : (([] : List Char).isPrefixOf new_text) = true :=
      List.isPrefixOf_iff_prefix.mpr List.nil_prefix
    rw [hnil] at hcontra
    exact absurd hcontra.2 (by simp))]
  refine ⟨rfl, ?_, rfl, ?_, ?_⟩ <;> simp

/-- C2 (amended): when the recognizer raises, `_transcribe` catches the
exception and yields `null`, but `process_audio` (given enough audio) does
NOT return `null`: it still runs the stability update with empty text and
returns the `StreamingResult` that update produces, so silence-based commits
can proceed. -/
theorem processAudio_exn (cfg : TranscriberConfig) (st : TrackerState)
    (audio : List Int) (sil : ℚ) (fin : Bool)
    (h : cfg.min_audio_samples ≤ audio.length) :
    transcribe cfg st.committed_text .exn = none ∧
    processAudio cfg st (some audio) .exn sil fin =
      some (updateStability cfg st none sil fin) := by
  refine ⟨rfl, ?_⟩
  unfold processAudio
  show (if audio.length < cfg.min_audio_samples then none
    else some (updateStability cfg st
      (transcribe cfg st.committed_text RecogOutcome.exn) sil fin)) =
    some (updateStability cfg st none sil fin)
  rw [if_neg (Nat.not_lt.mpr h)]
  rfl

set_option maxRecDepth 100000 in
/-- C7: the anti-echo clamp strips from the cleaned output its leading `i`
tokens for the LARGEST `i ≤ min(20, |prompt_tokens|, |output_tokens|)` with
`output_tokens[:i] == prompt_tokens[-i:]` (`Nat.findGreatest` of that
predicate), and leaves the output unchanged when no such `i` exists; in
particular prompt "the cat sat" with recognizer output
"the cat sat on the mat" yields "on the mat" through the full `_transcribe`
pipeline. -/
theorem anti_echo_clamp :
    (∀ prompt cleaned : List Char,
      clampEcho prompt cleaned =
        if Nat.findGreatest (fun i => (splitWs cleaned).take i =
              (splitWs prompt).drop ((splitWs prompt).length - i))
            (min (min (splitWs prompt).length (splitWs cleaned).length) 20) = 0
        then cleaned
        else joinWords ((splitWs cleaned).drop
          (Nat.findGreatest (fun i => (splitWs cleaned).take i =
              (splitWs prompt).drop ((splitWs prompt).length - i))
            (min (min (splitWs prompt).length (splitWs cleaned).length) 20)))) ∧
    transcribe trCfg "the cat sat".toList (.ok ["the cat sat on the mat".toList]) =
      some "on the mat".toList := by
  constructor
  · intro prompt cleaned
    unfold clampEcho
    show (if 0 < findEcho (splitWs cleaned) (splitWs prompt)
          (min (min (splitWs prompt).length (splitWs cleaned).length) 20)
        then joinWords ((splitWs cleaned).drop
          (findEcho (splitWs cleaned) (splitWs prompt)
            (min (min (splitWs prompt).length (splitWs cleaned).length) 20)))
        else cleaned) = _
    rw [findEcho_eq_findGreatest]
    by_cases h : Nat.findGreatest (fun i => (splitWs cleaned).take i =
        (splitWs prompt).drop ((splitWs prompt).length - i))
        (min (min (splitWs prompt).length (splitWs cleaned).length) 20) = 0
    · rw [h, if_pos rfl]
      simp
    · rw [if_pos (Nat.pos_of_ne_zero h), if_neg h]
  · decide

set_option maxRecDepth 100000 in
/-- C8 (amended): `_merge_with_committed` returns the new text when committed
is empty, the committed text when the new text is empty, the new text when it
starts with the committed text, and otherwise joins the committed words with
the new words after the LARGEST word overlap `k ≤ min(overlap_max_words,
|W_c|, |W_n|)` with `W_c[-k:] == W_n[:k]`; with no overlap it appends with a
single space and then STRIPS the result (the claim omitted the strip).
Consequently `merge(c, c) = c`, `merge(c, c ++ s) = c ++ s`, and the spec's
concrete overlap example holds. -/
theorem merge_characterization :
    (∀ (OM : ℕ) (c n : List Char),
      mergeWithCommitted OM c n =
        if c = [] then n
        else if n = [] then c
        else if c.isPrefixOf n then n
        else if Nat.findGreatest (fun i => (splitWs c).drop ((splitWs c).length - i) =
              (splitWs n).take i)
            (min OM (min (splitWs c).length (splitWs n).length)) = 0
        then pyStrip (c ++ ' ' :: n)
        else joinWords (splitWs c ++ (splitWs n).drop
          (Nat.findGreatest (fun i => (splitWs c).drop ((splitWs c).length - i) =
              (splitWs n).take i)
            (min OM (min (splitWs c).length (splitWs n).length))))) ∧
    (∀ (OM : ℕ) (c : List Char), mergeWithCommitted OM c c = c) ∧
    (∀ (OM : ℕ) (c s : List Char), mergeWithCommitted OM c (c ++ s) = c ++ s) ∧
    mergeWithCommitted 20 "the quick brown fox".toList "brown fox jumps over".toList =
      "the quick brown fox jumps over".toList := by
  refine ⟨?_, merge_self, ?_, by decide⟩
  · intro OM c n
    by_cases h1 : c = []
    · simp [mergeWithCommitted, h1]
    by_cases h2 : n = []
    · simp [mergeWithCommitted, h1, h2]
    by_cases h3 : c.isPrefixOf n
    · simp [mergeWithCommitted, h1, h2, h3]
    unfold mergeWithCommitted
    rw [if_neg h1, if_neg h2, if_neg h3, if_neg h1, if_neg h2, if_neg h3]
    show (match findOverlap (splitWs c) (splitWs n)
        (min OM (min (splitWs c).length (splitWs n).length)) with
      | some overlap => joinWords (splitWs c ++ (splitWs n).drop overlap)
      | none => pyStrip (c ++ ' ' :: n)) = _
    rw [findOverlap_eq_findGreatest]
    by_cases h4 : Nat.findGreatest (fun i => (splitWs c).drop ((splitWs c).length - i) =
        (splitWs n).take i) (min OM (min (splitWs c).length (splitWs n).length)) = 0
    · rw [if_pos h4, if_pos h4]
    · rw [if_neg h4, if_neg h4]
  · intro OM c s
    by_cases hc : c = []
    · simp [mergeWithCommitted, hc]
    unfold mergeWithCommitted
    rw [if_neg hc, if_neg (by simp [hc]),
      if_pos (List.isPrefixOf_iff_prefix.mpr (List.prefix_append c s))]

/-! ## Counterexamples and witnesses -/

/-- C1 counterexample: with `max_backspace_chars = 5`, ten typed characters
and new text "XYZ" (which does not start with the spec's
`prefix_keep = "abcde"`), the update is NOT refused: it returns `true`,
emits 10 backspaces and changes the state — contradicting "returns false,
zero events, state unchanged". -/
theorem injector_refusal_cex :
    injCfg.max_backspace_chars < injSt.typed_text.length ∧
    ((prefixKeepSpec injSt.typed_text injCfg.max_backspace_chars).isPrefixOf
      "XYZ".toList) = false ∧
    (injectorUpdate injCfg injSt "XYZ".toList true 50).ret = true ∧
    (injectorUpdate injCfg injSt "XYZ".toList true 50).backspaces = 10 ∧
    (injectorUpdate injCfg injSt "XYZ".toList true 50).state.typed_text ≠
      injSt.typed_text := by decide

/-- C1 witness: the amended theorem applied at the same concrete input. -/
theorem injector_budget_not_enforced_witness :
    (injectorUpdate injCfg injSt "XYZ".toList true 50).ret = true ∧
    (injectorUpdate injCfg injSt "XYZ".toList true 50).state.typed_text =
      "XYZ".toList ∧
    (injectorUpdate injCfg injSt "XYZ".toList true 50).state.last_update_time = 50 ∧
    (injectorUpdate injCfg injSt "XYZ".toList true 50).backspaces =
      injSt.typed_text.length - commonPrefixLen injSt.typed_text "XYZ".toList ∧
    (injectorUpdate injCfg injSt "XYZ".toList true 50).typed =
      "XYZ".toList.drop (commonPrefixLen injSt.typed_text "XYZ".toList) :=
  injector_budget_not_enforced injCfg injSt "XYZ".toList true 50
    (by decide) (Or.inl rfl) (by decide) (by decide) (by decide)

set_option maxRecDepth 100000 in
/-- C2 counterexample: a raising recognizer on sufficient audio still makes
`process_audio` return a `StreamingResult`, not `null`. -/
theorem processAudio_exn_cex :
    processAudio trCfg trFresh (some (List.replicate 1600 0)) .exn 0 false ≠
      none := by decide

set_option maxRecDepth 100000 in
/-- C2 witness: the amended theorem applied at a concrete input. -/
theorem processAudio_exn_witness :
    transcribe trCfg trFresh.committed_text .exn = none ∧
    processAudio trCfg trFresh (some (List.replicate 1600 0)) .exn 0 false =
      some (updateStability trCfg trFresh none 0 false) :=
  processAudio_exn trCfg trFresh (List.replicate 1600 0) 0 false (by decide)

set_option maxRecDepth 400000 in
/-- C3 counterexample: from committed "x", a final pass with a 21-token text
(one more than `overlap_max_words = 20`) appends with no overlap; the
immediately repeated identical final pass finds no 21-token overlap either
(the scan is capped at 20) and appends again, so the two `StreamingResult`s
differ. -/
theorem final_pass_idempotent_cex :
    (updateStability trCfg (updateStability trCfg trX (some t21) 0 true).1
      (some t21) 0 true).2 ≠ (updateStability trCfg trX (some t21) 0 true).2 := by
  decide

/-- C3 witness: the amended idempotence theorem applied at a concrete input
satisfying its normalization and token-count hypotheses. -/
theorem final_pass_idempotent_witness :
    normalW (⟨"hello".toList, [], [], 0⟩ : TrackerState).committed_text ∧
    normalW (pyStrip " world ".toList) ∧
    (splitWs (pyStrip " world ".toList)).length ≤ trCfg.overlap_max_words ∧
    (updateStability trCfg
      (updateStability trCfg ⟨"hello".toList, [], [], 0⟩
        (some " world ".toList) 0 true).1 (some " world ".toList) 0 true).2 =
    (updateStability trCfg ⟨"hello".toList, [], [], 0⟩
      (some " world ".toList) 0 true).2 :=
  ⟨by decide, by decide, by decide,
    final_pass_idempotent trCfg ⟨"hello".toList, [], [], 0⟩ " world ".toList 0
      (by decide) (by decide) (by decide)⟩

/-- C4 counterexample: committing "hello wor" (by silence) and then receiving
"hello world" yields a later `full_text` whose tokens do not contain the
committed tokens as a subsequence ("wor" is not a token of "hello world"). -/
theorem committed_monotone_cex :
    (updateStability trCfg trFresh (some "hello wor".toList) 1 false).1.committed_text
      = "hello wor".toList ∧
    (updateStability trCfg
      (updateStability trCfg trFresh (some "hello wor".toList) 1 false).1
      (some "hello world".toList) 1 false).2.full_text = "hello world".toList ∧
    subseqB (splitWs "hello wor".toList) (splitWs "hello world".toList) = false := by
  decide

/-- C4 witness: the amended monotonicity theorem applied to a concrete
two-input session with normalized inputs. -/
theorem committed_monotone_witness :
    normalW trFresh.committed_text ∧
    trFresh.committed_text <+:
      (runTracker trCfg trFresh [⟨some "hello wor".toList, 1, false⟩,
        ⟨some "hello world".toList, 1, false⟩]).1.committed_text :=
  ⟨by decide,
    (committed_monotone trCfg trFresh
      [⟨some "hello wor".toList, 1, false⟩, ⟨some "hello world".toList, 1, false⟩]
      (by decide) (by decide)).1⟩

/-- C5 witness: the invariant theorem applied to the state reached after two
appends into a 4-sample buffer (the second append evicts the first chunk). -/
theorem ringBuffer_invariant_witness :
    (⟨4, 4, [[2, 2, 2]], 3⟩ : RingBuffer) ∈
      ringStates (RingBuffer.init 1 4) [RingOp.append [1, 1, 1], RingOp.append [2, 2, 2]] ∧
    (⟨4, 4, [[2, 2, 2]], 3⟩ : RingBuffer).total_samples ≤
      (⟨4, 4, [[2, 2, 2]], 3⟩ : RingBuffer).max_samples ∧
    ((⟨4, 4, [[2, 2, 2]], 3⟩ : RingBuffer).append [7, 7]).buffer <:+
      (⟨4, 4, [[2, 2, 2]], 3⟩ : RingBuffer).buffer ++ [[7, 7]] := by
  have hinit : RingBuffer.init 1 4 = ⟨4, 4, [], 0⟩ := by
    unfold RingBuffer.init pyInt
    norm_num
    rfl
  have hmem : (⟨4, 4, [[2, 2, 2]], 3⟩ : RingBuffer) ∈
      ringStates (RingBuffer.init 1 4)
        [RingOp.append [1, 1, 1], RingOp.append [2, 2, 2]] := by
    rw [hinit]
    decide
  have h := ringBuffer_invariant 1 4
    [RingOp.append [1, 1, 1], RingOp.append [2, 2, 2]] ⟨4, 4, [[2, 2, 2]], 3⟩ hmem
  exact ⟨hmem, h.2.1, h.2.2 [7, 7]⟩

/-- C10 witness: appending a 5-sample chunk to a 4-sample-capacity buffer
holding 3 samples empties it completely. -/
theorem append_oversized_witness :
    ((⟨4, 4, [[1, 1, 1]], 3⟩ : RingBuffer).append [9, 9, 9, 9, 9]).buffer = [] ∧
    ((⟨4, 4, [[1, 1, 1]], 3⟩ : RingBuffer).append [9, 9, 9, 9, 9]).total_samples = 0 ∧
    ((⟨4, 4, [[1, 1, 1]], 3⟩ : RingBuffer).append [9, 9, 9, 9, 9]).get_audio none = [] :=
  append_oversized ⟨4, 4, [[1, 1, 1]], 3⟩ [9, 9, 9, 9, 9] (by decide) (by decide)

/-- C6 counterexample: with sample rate 10 and `last_seconds = 1/4`, the code
returns the last `int(2.5) = 2` samples `[4, 5]`, not the last
`ceil(2.5) = 3` samples `[3, 4, 5]` the claim specifies. -/
theorem get_audio_ceil_cex :
    rbW.get_audio (some (1 / 4)) = [4, 5] ∧
    takeLast (⌈((1 : ℚ) / 4) * ((rbW.sample_rate : ℕ) : ℚ)⌉).toNat
      rbW.buffer.flatten = [3, 4, 5] ∧
    ([4, 5] : List Int) ≠ [3, 4, 5] := by
  have hpy : pyInt ((1 / 4 : ℚ) * ((10 : ℕ) : ℚ)) = 2 := by
    unfold pyInt
    norm_num
  have hceil : (⌈((1 : ℚ) / 4) * ((10 : ℕ) : ℚ)⌉).toNat = 3 := by
    have h5 : ⌈((1 : ℚ) / 4) * ((10 : ℕ) : ℚ)⌉ = 3 :=
      Int.ceil_eq_iff.mpr ⟨by norm_num, by norm_num⟩
    rw [h5]
    rfl
  refine ⟨?_, ?_, by decide⟩
  · show (if rbW.buffer = [] then []
      else match some ((1 : ℚ) / 4) with
        | none => rbW.buffer.flatten
        | some ls =>
          if pyInt (ls * (rbW.sample_rate : ℚ)) < (rbW.buffer.flatten.length : ℤ)
          then pySliceNeg (pyInt (ls * (rbW.sample_rate : ℚ))) rbW.buffer.flatten
          else rbW.buffer.flatten) = [4, 5]
    rw [if_neg (by decide)]
    show (if pyInt ((1 / 4 : ℚ) * ((10 : ℕ) : ℚ)) < ((5 : ℕ) : ℤ)
        then pySliceNeg (pyInt ((1 / 4 : ℚ) * ((10 : ℕ) : ℚ))) [1, 2, 3, 4, 5]
        else [1, 2, 3, 4, 5]) = [4, 5]
    rw [hpy, if_pos (by decide)]
    decide
  · show takeLast (⌈((1 : ℚ) / 4) * ((10 : ℕ) : ℚ)⌉).toNat [1, 2, 3, 4, 5] = [3, 4, 5]
    rw [hceil]
    decide

/-- C9 witness: after a reset, processing two silent chunks leaves the
reported silence equal to the full wallclock value (`5` at time `5`). -/
theorem silence_after_reset_witness :
    (runVAD vadW.reset [⟨100, 0, 3⟩, ⟨100, 0, 4⟩]).silence_duration 5 = 5 :=
  (silence_after_reset vadW [⟨100, 0, 3⟩, ⟨100, 0, 4⟩] 5 (by decide)).1

/-- C8 counterexample: in the no-overlap branch the code strips the forced
append, so `merge(" x", "y")` is `"x y"`, not the claim's
`committed + " " + new_text = " x y"`. -/
theorem merge_strip_cex :
    mergeWithCommitted 20 " x".toList "y".toList = "x y".toList ∧
    " x".toList ++ ' ' :: "y".toList = " x y".toList ∧
    "x y".toList ≠ " x y".toList := by decide
